import Mathlib

/-!
Verification of the marvin2 resource-conflict scheduling core against its
specification.  The Go sources are shallowly embedded: the `lights.Set`
type (a Go map from light id to bool, with `nil` meaning "all lights") is
modelled as `LightSet`, whose explicit alternative carries an association
list of `(id, value)` pairs; Go map operations iterate keys and consult
boolean values, which the list embedding mirrors entry by entry.  Because
a Go map is unordered while a list is ordered, construction routines keep
the list sorted by key (the canonical representative of the map); this is
only a choice of representative and changes no observable behaviour.
Functions that can panic in Go return `Option`, with `none` marking the
panic.
-/

/-- An embedded Go map from light id to bool: an association list of
`(key, value)` pairs.  Go guarantees distinct keys; `SetWF` states that
invariant (strengthened to sortedness, the canonical key order). -/
abbrev SetMap := List (Int × Bool)

/-- Lookup of `m[i]` in a Go map: the stored value, or `false` when the key
is absent (Go's zero value for bool). -/
def lfind : SetMap → Int → Option Bool
  | [], _ => none
  | p :: rest, i => if p.1 = i then some p.2 else lfind rest i

/-- Go's `l[i]` expression: value lookup defaulting to `false`. -/
def lget (m : SetMap) (i : Int) : Bool :=
  (lfind m i).getD false

/-- Well-formedness of an embedded Go map: keys strictly ascending (hence
distinct, as in any Go map). -/
def SetWF (m : SetMap) : Prop :=
  List.Pairwise (fun p q : Int × Bool => p.1 < q.1) m

instance (m : SetMap) : Decidable (SetWF m) := by
  unfold SetWF
  infer_instance

/-- Go's `m[j] = true` map assignment, on the canonical sorted list. -/
def insertTrue : SetMap → Int → SetMap
  | [], j => [(j, true)]
  | p :: rest, j =>
    if j < p.1 then (j, true) :: p :: rest
    else if j = p.1 then (p.1, true) :: rest
    else p :: insertTrue rest j

/-- Iterating the true-valued entries of `other` and assigning each into the
accumulator: the body of `Set.mutableAdd` in lights (part_005). -/
def mutableAdd (acc other : SetMap) : SetMap :=
  other.foldl (fun a p => if p.2 then insertTrue a p.1 else a) acc

/-- The loop body shared by `Intersect` and `Subtract` in lights
(part_005): keep the entries of `m` whose key satisfies `f`, writing value
`true` for each survivor (Go only ever inserts `true`). -/
def filterTrueMap (m : SetMap) (f : Int × Bool → Bool) : SetMap :=
  (m.filter f).map (fun p => (p.1, true))

/-- `lights.Set.Subtract` on an explicit (non-nil) receiver: ids present in
`m` but not in `o` (part_005 lines 133-149). -/
def subtractE (m o : SetMap) : SetMap :=
  filterTrueMap m (fun p => p.2 && !(lget o p.1))

/-- `lights.Set.Intersect` on two explicit maps (part_005 lines 113-131).
Go iterates the smaller map as an optimization; iterating `m` yields the
same map. -/
def intersectE (m o : SetMap) : SetMap :=
  filterTrueMap m (fun p => p.2 && lget o p.1)

/-- `IsNone` on an explicit map: no true value among the entries
(part_005 lines 156-167). -/
def isNoneM (m : SetMap) : Bool :=
  m.all (fun p => !p.2)

/-- The `lights.Set` type: Go's `nil` (all lights) or an explicit map. -/
inductive LightSet where
  | all : LightSet
  | explicit (m : SetMap) : LightSet
deriving DecidableEq

/-- `lights.New`: build an explicit map with each listed id set to true
(part_005 lines 24-31). -/
def goNew (ids : List Int) : SetMap :=
  ids.foldl insertTrue []

/-- `lights.Set.IsAll` (part_005 lines 151-154). -/
def LightSet.isAll : LightSet → Bool
  | .all => true
  | .explicit _ => false

/-- `lights.Set.IsNone` (part_005 lines 156-167): nil is not none; an
explicit map is none when it has no true value. -/
def LightSet.isNone : LightSet → Bool
  | .all => false
  | .explicit m => isNoneM m

/-- `lights.Set.OverlapsWith` (part_005 lines 94-111).  Go swaps the two
maps to iterate the smaller; the swap does not change the answer, so the
embedding always iterates the receiver. -/
def overlapsWith : LightSet → LightSet → Bool
  | .all, o => !o.isNone
  | .explicit m, .all => !(isNoneM m)
  | .explicit m, .explicit o => m.any (fun p => p.2 && lget o p.1)

/-- `lights.Set.Intersect` (part_005 lines 113-131). -/
def LightSet.intersect : LightSet → LightSet → LightSet
  | .all, o => o
  | .explicit m, .all => .explicit m
  | .explicit m, .explicit o => .explicit (intersectE m o)

/-- `lights.Set.Subtract` (part_005 lines 133-149).  A nil receiver panics
in Go ("Cannot subtract from All lights."), modelled as `none`; a nil
operand yields `lights.None` (the empty map). -/
def subtract? : LightSet → LightSet → Option LightSet
  | .all, _ => none
  | .explicit _, .all => some (.explicit [])
  | .explicit m, .explicit o => some (.explicit (subtractE m o))

/-- Membership of a light id in a set, Go-semantically: every id belongs
to the nil (all) set, and an id belongs to an explicit map when its stored
value is true. -/
def LightSet.memL (i : Int) : LightSet → Prop
  | .all => True
  | .explicit m => lget m i = true

/-- The subset relation used by the `UsedLights` monotonicity axiom
(part_002 lines 39-41). -/
def LightSet.subsetL (a b : LightSet) : Prop :=
  ∀ i : Int, a.memL i → b.memL i

/-- Insertion of an id into a sorted int list (models `sort.Ints` applied
to the collected keys, part_005 line 89). -/
def insertSorted (i : Int) : List Int → List Int
  | [] => [i]
  | j :: rest => if i ≤ j then i :: j :: rest else j :: insertSorted i rest

/-- Ascending sort of collected keys, as `sort.Ints` produces. -/
def sortInts (l : List Int) : List Int :=
  l.foldr insertSorted []

/-- `lights.Set.Slice` on an explicit map (part_005 lines 72-92): the keys
with true values in ascending order (the `ok` flag is their nonemptiness). -/
def sliceE (m : SetMap) : List Int :=
  sortInts ((m.filter (fun p => p.2)).map (fun p => p.1))

/-- `lights.Set.String` (part_005 lines 178-194): "All" for nil, "None"
for an empty slice, else the comma-joined ascending ids. -/
def lsString : LightSet → String
  | .all => "All"
  | .explicit m =>
    let ids := sliceE m
    if ids.isEmpty then "None"
    else String.intercalate "," (ids.map (fun i => toString i))

/-- Go `unicode.IsSpace`: the Unicode White_Space property, as listed in
the Go runtime tables. -/
def goIsSpace (c : Char) : Bool :=
  let n := c.toNat
  n = 9 || n = 10 || n = 11 || n = 12 || n = 13 || n = 32 ||
    n = 0x85 || n = 0xa0 || n = 0x1680 ||
    (0x2000 ≤ n && n ≤ 0x200a) ||
    n = 0x2028 || n = 0x2029 || n = 0x202f || n = 0x205f || n = 0x3000

/-- Go `strings.TrimSpace`: drop leading and trailing white space. -/
def goTrimSpace (l : List Char) : List Char :=
  ((l.dropWhile goIsSpace).reverse.dropWhile goIsSpace).reverse

/-- Go `strings.Split(s, ",")`: the substrings between commas (one more
part than there are commas; parts may be empty). -/
def splitComma : List Char → List (List Char)
  | [] => [[]]
  | c :: rest =>
    if c = ',' then [] :: splitComma rest
    else
      match splitComma rest with
      | p :: ps => (c :: p) :: ps
      | [] => [[c]]

/-- Go `strconv.Atoi`: an optional sign followed by at least one ASCII
digit, within the 64-bit int range; anything else is an error (`none`). -/
def goAtoi (p : List Char) : Option Int :=
  let core := fun (neg : Bool) (ds : List Char) =>
    if ds.isEmpty then none
    else if ds.all Char.isDigit then
      let n : Nat := ds.foldl (fun a c => a * 10 + (c.toNat - 48)) 0
      if neg then
        if (n : Int) ≤ 9223372036854775808 then some (-(n : Int)) else none
      else
        if (n : Int) ≤ 9223372036854775807 then some (n : Int) else none
    else none
  match p with
  | '-' :: rest => core true rest
  | '+' :: rest => core false rest
  | _ => core false p

/-- The per-part loop of `lights.Parse` (part_005 lines 57-67): Atoi each
trimmed part, rejecting non-numbers and non-positive ids. -/
def parseIds : List (List Char) → Except String (List Int)
  | [] => .ok []
  | p :: rest =>
    match goAtoi p with
    | none => .error "atoi"
    | some light =>
      if light ≤ 0 then .error "Only positive light Ids allowed."
      else (parseIds rest).map (fun ids => light :: ids)

/-- `lights.Parse` (part_005 lines 44-70): trim, empty means all lights,
else split on commas, trim each part, Atoi each, and collect the ids as an
explicit map of true values. -/
def goParse (s : String) : Except String LightSet :=
  let t := goTrimSpace s.data
  if t = [] then .ok .all
  else
    let parts := (splitComma t).map goTrimSpace
    (parseIds parts).map (fun ids => .explicit (ids.foldl insertTrue []))

/-- `lights.InvString` (part_005 lines 33-42): the exact inverse of
`String` — "All" and "None" map to the sentinels, all else to `Parse`. -/
def invString (s : String) : Except String LightSet :=
  if s = "All" then .ok .all
  else if s = "None" then .ok (.explicit [])
  else goParse s

/-- Go `time.Time.Unix()` for a time measured in nanoseconds since the
epoch: floor division by 1e9 (Go stores seconds plus a nonnegative
sub-second part; Lean's `Int` division is Euclidean, which is floor for a
positive divisor). -/
def goUnix (ns : Int) : Int :=
  ns / 1000000000

/-- `utils.HueTaskWrapper` (utils.go lines 589-606): a hue task bound to a
light set.  Only the fields that the conflict predicate and task id read
are modelled. -/
structure HueTaskW where
  hId : Int
  ls : LightSet
deriving DecidableEq

/-- `utils.TimerTaskWrapper` (utils.go lines 641-657): a hue task bound to
a light set and a start time (nanoseconds since epoch). -/
structure TimerTaskW where
  hId : Int
  ls : LightSet
  startNs : Int
deriving DecidableEq

/-- `HueTaskWrapper.ConflictsWith` (utils.go lines 626-630): light-set
overlap. -/
def HueTaskW.conflictsWith (t o : HueTaskW) : Bool :=
  overlapsWith t.ls o.ls

/-- `TimerTaskWrapper.ConflictsWith` (utils.go lines 667-672): equal Unix
seconds and light-set overlap. -/
def TimerTaskW.conflictsWith (t o : TimerTaskW) : Bool :=
  (goUnix t.startNs == goUnix o.startNs) && overlapsWith t.ls o.ls

/-- `TimerTaskWrapper.TaskId` (utils.go lines 674-677):
`fmt.Sprintf("%d:%d:%s", H.Id, StartTime.Unix(), Ls)`. -/
def timerTaskId (t : TimerTaskW) : String :=
  toString t.hId ++ ":" ++ toString (goUnix t.startNs) ++ ":" ++ lsString t.ls

/-- The externally visible steps of a `TimerTaskWrapper.Do` body: handing
the bound task to the executor's Begin path, and removing the persisted
record by schedule id. -/
inductive TEffect where
  | beginTask (hId : Int) (ls : LightSet) : TEffect
  | removeEntry (id : String) : TEffect
deriving DecidableEq

/-- `TimerTaskWrapper.Do` (utils.go lines 659-665): compute
`d = StartTime - Now()`; when `d > 0` and the cooperative sleep finishes
uncancelled (`sleepOk`), hand the task to `executor.Begin`; in every case
finish by removing the persisted record.  The result lists the effects in
program order. -/
def timerDo (t : TimerTaskW) (nowNs : Int) (sleepOk : Bool) : List TEffect :=
  let d := t.startNs - nowNs
  (if 0 < d ∧ sleepOk = true then [TEffect.beginTask t.hId t.ls] else []) ++
    [TEffect.removeEntry (timerTaskId t)]

/-- `TaskCollection.Conflicts` (utils.go lines 548-561), generic over the
task type and the execution handle type: walk the registered entries in
order and collect the execution of each entry whose task conflicts with
the candidate; a nil candidate (`none`) collects every execution. -/
def conflictsList {τ ε : Type} (cw : τ → τ → Bool) :
    List (τ × ε) → Option τ → List ε
  | [], _ => []
  | p :: rest, cand =>
    if (match cand with | none => true | some c => cw p.1 c) then
      p.2 :: conflictsList cw rest cand
    else conflictsList cw rest cand

/-- `ops.StaticHueAction.UsedLights` (part_002 lines 179-188).  `ks` is
the key list of the action's color map (distinct in Go); when key 0 is
present the candidate set is returned unchanged, otherwise the keys are
collected into a map of true values and intersected with the candidate. -/
def staticUsedLights (ks : List Int) (s : LightSet) : LightSet :=
  if ks.contains 0 then s
  else (LightSet.explicit (ks.foldl insertTrue [])).intersect s

/-- The effective light set registered by `MultiExecutor.Start` (utils.go
lines 245-253): the task's `UsedLights` closure of the suggested set, or
no execution when that closure is none.  The cancellation of conflicting
executions is not modelled: it does not change the returned light set. -/
def startEx (U : LightSet → LightSet) (ls : LightSet) : Option LightSet :=
  let u := U ls
  if u.isNone then none else some u

/-- The lights-in-use loop of `MultiExecutor.MaybeStart` (utils.go lines
212-218): walk the running tasks' light sets, giving up (`none`) when one
is nil (all lights), otherwise accumulating their union. -/
def lightsInUseLoop : List LightSet → SetMap → Option SetMap
  | [], acc => some acc
  | .all :: _, _ => none
  | .explicit m :: rest, acc => lightsInUseLoop rest (mutableAdd acc m)

/-- `MultiExecutor.MaybeStart` (utils.go lines 190-240).  `U` is the hue
task's `UsedLights` closure and `running` the light sets of the registered
tasks at the time of the call.  The outer `Option` marks a Go panic (a
`Subtract` from the nil set); `some none` is a nil execution (refusal);
`some (some w)` is an accepted execution whose task runs on `w`. -/
def maybeStart (U : LightSet → LightSet) (running : List LightSet)
    (lightSet : LightSet) : Option (Option LightSet) :=
  match running with
  | [] => some (startEx U lightSet)
  | _ :: _ =>
    let needed := U lightSet
    if needed.isNone then some none
    else if needed.isAll then some none
    else
      match lightsInUseLoop running [] with
      | none => some none
      | some inUse =>
        match subtract? needed (.explicit inUse) with
        | none => none
        | some avail =>
          if avail.isNone then some none
          else
            let willUse := U avail
            if willUse.isNone then some none
            else
              match subtract? willUse avail with
              | none => none
              | some leftover =>
                if leftover.isNone then some (some willUse) else some none

theorem lget_nil (i : Int) : lget [] i = false := rfl

theorem lget_cons (p : Int × Bool) (rest : SetMap) (i : Int) :
    lget (p :: rest) i = if p.1 = i then p.2 else lget rest i := by
  by_cases h : p.1 = i <;> simp [lget, lfind, h]

theorem lget_insertTrue (m : SetMap) (j i : Int) :
    lget (insertTrue m j) i = if i = j then true else lget m i := by
  induction m with
  | nil =>
    by_cases h : i = j
    · subst h
      simp [insertTrue, lget_cons]
    · have h' : ¬ j = i := fun hc => h hc.symm
      simp [insertTrue, lget_cons, h, h', lget_nil]
  | cons p rest ih =>
    obtain ⟨a, b⟩ := p
    by_cases h1 : j < a
    · by_cases h : i = j
      · subst h
        simp [insertTrue, h1, lget_cons]
      · have h' : ¬ j = i := fun hc => h hc.symm
        simp [insertTrue, h1, lget_cons, h, h']
    · by_cases h2 : j = a
      · subst h2
        by_cases h : i = j
        · subst h
          simp [insertTrue, h1, lget_cons]
        · have h' : ¬ j = i := fun hc => h hc.symm
          simp [insertTrue, h1, lget_cons, h, h']
      · by_cases h3 : a = i
        · subst h3
          have h4 : ¬ a = j := fun hc => h2 hc.symm
          simp [insertTrue, h1, h2, lget_cons, h4]
        · simp [insertTrue, h1, h2, lget_cons, h3, ih]

theorem mem_of_lget_true (m : SetMap) (i : Int) (h : lget m i = true) :
    (i, true) ∈ m := by
  induction m with
  | nil => simp [lget_nil] at h
  | cons p rest ih =>
    obtain ⟨a, b⟩ := p
    rw [lget_cons] at h
    by_cases h1 : a = i
    · rw [if_pos h1] at h
      simp only at h
      subst h1
      subst h
      exact List.mem_cons_self _ _
    · rw [if_neg h1] at h
      exact List.mem_cons_of_mem _ (ih h)
  

theorem lget_mutableAdd (acc other : SetMap) (i : Int) :
    lget (mutableAdd acc other)
      i = (lget acc i || other.any (fun p => p.1 == i && p.2)) := by
  induction other generalizing acc with
  | nil => simp [mutableAdd]
  | cons p rest ih =>
    obtain ⟨a, b⟩ := p
    have step : mutableAdd acc ((a, b) :: rest)
        = mutableAdd (if b then insertTrue acc a else acc) rest := rfl
    rw [step, ih]
    cases b
    · simp
    · rw [if_pos rfl, lget_insertTrue]
      by_cases h : i = a
      · subst h
        simp
      · have h' : ¬ a = i := fun hc => h hc.symm
        have hbe : (a == i) = false := beq_eq_false_iff_ne.mpr h'
        simp [h, hbe]

theorem lfind_eq_none_of_nokey (m : SetMap) (i : Int)
    (h : ∀ p ∈ m, p.1 ≠ i) : lfind m i = none := by
  induction m with
  | nil => rfl
  | cons p rest ih =>
    rw [lfind]
    rw [if_neg (h p (List.mem_cons_self p rest))]
    exact ih (fun q hq => h q (List.mem_cons_of_mem p hq))

theorem lfind_of_mem_wf (m : SetMap) (hwf : SetWF m) (p : Int × Bool)
    (hp : p ∈ m) : lfind m p.1 = some p.2 := by
  induction m with
  | nil => exact absurd hp (List.not_mem_nil p)
  | cons q rest ih =>
    rw [SetWF, List.pairwise_cons] at hwf
    rcases List.mem_cons.mp hp with h | h
    · subst h
      rw [lfind, if_pos rfl]
    · have hne : ¬ q.1 = p.1 := Int.ne_of_lt (hwf.1 p h)
      rw [lfind, if_neg hne]
      exact ih hwf.2 h

theorem mem_filterTrueMap (m : SetMap) (f : Int × Bool → Bool)
    (q : Int × Bool) (hq : q ∈ filterTrueMap m f) :
    q.2 = true ∧ ∃ p ∈ m, p.1 = q.1 ∧ f p = true := by
  rw [filterTrueMap] at hq
  rcases List.mem_map.mp hq with ⟨p, hpmem, hpeq⟩
  rcases List.mem_filter.mp hpmem with ⟨hpm, hpf⟩
  subst hpeq
  exact ⟨rfl, p, hpm, rfl, hpf⟩

theorem lget_filterTrueMap_of_nokey (m : SetMap) (f : Int × Bool → Bool)
    (i : Int) (h : ∀ p ∈ m, p.1 ≠ i) : lget (filterTrueMap m f) i = false := by
  rw [lget, lfind_eq_none_of_nokey]
  · rfl
  · intro q hq
    rcases mem_filterTrueMap m f q hq with ⟨-, p, hpm, hpq, -⟩
    rw [← hpq]
    exact h p hpm

theorem lget_filterTrueMap (m : SetMap) (f : Int × Bool → Bool)
    (hwf : SetWF m) (i : Int) :
    lget (filterTrueMap m f)
      i = ((lfind m i).map (fun b => f (i, b))).getD false := by
  induction m with
  | nil => rfl
  | cons q rest ih =>
    rw [SetWF, List.pairwise_cons] at hwf
    have hstep : filterTrueMap (q :: rest) f
        = if f q then (q.1, true) :: filterTrueMap rest f
          else filterTrueMap rest f := by
      rw [filterTrueMap, filterTrueMap, List.filter_cons]
      by_cases hf : f q <;> simp [hf]
    by_cases he : q.1 = i
    · have hfind : lfind (q :: rest) i = some q.2 := by
        rw [lfind, if_pos he]
      have hrest : lget (filterTrueMap rest f) i = false := by
        apply lget_filterTrueMap_of_nokey
        intro p hp
        rw [← he]
        exact (Int.ne_of_lt (hwf.1 p hp)).symm
      have hq : f (i, q.2) = f q := by
        rw [← he]
      rw [hstep]
      by_cases hf : f q
      · rw [if_pos hf, lget_cons, if_pos he, hfind]
        simp [hq, hf]
      · rw [if_neg hf, hrest, hfind]
        simp [hq, hf]
    · have hfind : lfind (q :: rest) i = lfind rest i := by
        rw [lfind, if_neg he]
      rw [hstep, hfind, ← ih hwf.2]
      by_cases hf : f q
      · rw [if_pos hf, lget_cons, if_neg he]
      · rw [if_neg hf]

theorem isNoneM_filterTrueMap (m : SetMap) (f : Int × Bool → Bool) :
    isNoneM (filterTrueMap m f) = true ↔ ∀ p ∈ m, f p = false := by
  constructor
  · intro h p hp
    cases hfeq : f p
    · rfl
    · exfalso
      have hmem : (p.1, true) ∈ filterTrueMap m f := by
        rw [filterTrueMap]
        exact List.mem_map.mpr ⟨p, List.mem_filter.mpr ⟨hp, hfeq⟩, rfl⟩
      rw [isNoneM, List.all_eq_true] at h
      have := h (p.1, true) hmem
      simp at this
  · intro h
    rw [isNoneM, List.all_eq_true]
    intro q hq
    rcases mem_filterTrueMap m f q hq with ⟨-, p, hpm, -, hpf⟩
    rw [h p hpm] at hpf
    exact absurd hpf (by simp)

theorem isNoneM_insertTrue (m : SetMap) (j : Int) :
    isNoneM (insertTrue m j) = false := by
  induction m with
  | nil => simp [insertTrue, isNoneM]
  | cons p rest ih =>
    by_cases h1 : j < p.1
    · simp [insertTrue, h1, isNoneM]
    · by_cases h2 : j = p.1
      · simp [insertTrue, h1, h2, isNoneM]
      · simp only [insertTrue, if_neg h1, if_neg h2, isNoneM, List.all_cons]
        rw [isNoneM] at ih
        rw [ih]
        simp

theorem isNoneM_foldl_insertTrue (ids : List Int) (m : SetMap)
    (h : isNoneM m = false) : isNoneM (ids.foldl insertTrue m) = false := by
  induction ids generalizing m with
  | nil => simpa
  | cons a rest ih =>
    rw [List.foldl_cons]
    exact ih _ (isNoneM_insertTrue m a)

theorem mem_insertTrue (m : SetMap) (j : Int) (q : Int × Bool)
    (hq : q ∈ insertTrue m j) : q.1 = j ∨ q ∈ m := by
  induction m with
  | nil =>
    rw [insertTrue] at hq
    rcases List.mem_singleton.mp hq with h
    rw [h]
    exact Or.inl rfl
  | cons p rest ih =>
    by_cases h1 : j < p.1
    · rw [insertTrue, if_pos h1] at hq
      rcases List.mem_cons.mp hq with h | h
      · rw [h]
        exact Or.inl rfl
      · exact Or.inr h
    · by_cases h2 : j = p.1
      · rw [insertTrue, if_neg h1, if_pos h2] at hq
        rcases List.mem_cons.mp hq with h | h
        · rw [h, ← h2]
          exact Or.inl rfl
        · exact Or.inr (List.mem_cons_of_mem p h)
      · rw [insertTrue, if_neg h1, if_neg h2] at hq
        rcases List.mem_cons.mp hq with h | h
        · rw [h]
          exact Or.inr (List.mem_cons_self p rest)
        · rcases ih h with h' | h'
          · exact Or.inl h'
          · exact Or.inr (List.mem_cons_of_mem p h')

theorem insertTrue_wf (m : SetMap) (j : Int) (h : SetWF m) :
    SetWF (insertTrue m j) := by
  induction m with
  | nil =>
    rw [insertTrue, SetWF]
    exact List.pairwise_singleton _ _
  | cons p rest ih =>
    rw [SetWF, List.pairwise_cons] at h
    by_cases h1 : j < p.1
    · rw [insertTrue, if_pos h1, SetWF, List.pairwise_cons]
      refine ⟨?_, h.2.cons h.1⟩
      intro q hq
      rcases List.mem_cons.mp hq with h' | h'
      · rw [h']
        exact h1
      · exact lt_trans h1 (h.1 q h')
    · by_cases h2 : j = p.1
      · rw [insertTrue, if_neg h1, if_pos h2, SetWF, List.pairwise_cons]
        exact ⟨h.1, h.2⟩
      · rw [insertTrue, if_neg h1, if_neg h2, SetWF, List.pairwise_cons]
        refine ⟨?_, ih h.2⟩
        intro q hq
        rcases mem_insertTrue rest j q hq with h' | h'
        · rw [h']
          rcases lt_trichotomy j p.1 with ht | ht | ht
          · exact absurd ht h1
          · exact absurd ht h2
          · exact ht
        · exact h.1 q h'

theorem goNew_wf (ids : List Int) : SetWF (goNew ids) := by
  rw [goNew]
  have : ∀ m : SetMap, SetWF m → SetWF (ids.foldl insertTrue m) := by
    induction ids with
    | nil => exact fun m hm => hm
    | cons a rest ih =>
      intro m hm
      rw [List.foldl_cons]
      exact ih _ (insertTrue_wf m a hm)
  exact this [] List.Pairwise.nil

theorem lightsInUseLoop_acc (running : List LightSet) (acc out : SetMap)
    (i : Int) (h : lightsInUseLoop running acc = some out)
    (hi : lget acc i = true) : lget out i = true := by
  induction running generalizing acc with
  | nil =>
    rw [lightsInUseLoop] at h
    cases h
    exact hi
  | cons L rest ih =>
    cases L with
    | all => exact absurd h (by rw [lightsInUseLoop]; simp)
    | explicit m =>
      rw [lightsInUseLoop] at h
      refine ih _ h ?_
      rw [lget_mutableAdd, hi]
      rfl

theorem lightsInUseLoop_mem (running : List LightSet) (acc out : SetMap)
    (h : lightsInUseLoop running acc = some out) (m : SetMap)
    (hm : LightSet.explicit m ∈ running) (i : Int) (hi : lget m i = true) :
    lget out i = true := by
  induction running generalizing acc with
  | nil => exact absurd hm (List.not_mem_nil _)
  | cons L rest ih =>
    cases L with
    | all => exact absurd h (by rw [lightsInUseLoop]; simp)
    | explicit m' =>
      rw [lightsInUseLoop] at h
      rcases List.mem_cons.mp hm with h' | h'
      · have hm' : m = m' := by
          injection h'
        subst hm'
        refine lightsInUseLoop_acc rest _ out i h ?_
        rw [lget_mutableAdd]
        have : m.any (fun p => p.1 == i && p.2) = true := by
          rw [List.any_eq_true]
          exact ⟨(i, true), mem_of_lget_true m i hi, by simp⟩
        rw [this]
        simp
      · exact ih _ h h'

theorem lightsInUseLoop_noAll (running : List LightSet) (acc out : SetMap)
    (h : lightsInUseLoop running acc = some out) (L : LightSet)
    (hL : L ∈ running) : L ≠ LightSet.all := by
  induction running generalizing acc with
  | nil => exact absurd hL (List.not_mem_nil _)
  | cons K rest ih =>
    cases K with
    | all => exact absurd h (by rw [lightsInUseLoop]; simp)
    | explicit m' =>
      rw [lightsInUseLoop] at h
      rcases List.mem_cons.mp hL with h' | h'
      · rw [h']
        intro hc
        cases hc
      · exact ih _ h h'

/-- Claim C7: `Subtract` with the ALL sentinel as the receiver panics (the
model returns `none`) for every operand, and `Subtract` never panics when
the receiver is an explicit (non-ALL) set. -/
theorem C7_subtract_panics_exactly_on_all_receiver :
    (∀ o : LightSet, subtract? LightSet.all o = none) ∧
    (∀ (m : SetMap) (o : LightSet),
      (subtract? (LightSet.explicit m) o).isSome = true) := by
  constructor
  · intro o
    rfl
  · intro m o
    cases o <;> rfl

/-- Claim C9: on every terminating path of the timed execution body —
fired, cancelled before the fire time, or past-due — the final step is the
removal of the persisted record for the task's schedule id. -/
theorem C9_timer_body_ends_with_store_removal (t : TimerTaskW)
    (nowNs : Int) (sleepOk : Bool) :
    (timerDo t nowNs sleepOk).getLast?
      = some (TEffect.removeEntry (timerTaskId t)) := by
  simp only [timerDo]
  by_cases h : 0 < t.startNs - nowNs ∧ sleepOk = true
  · rw [if_pos h]
    rfl
  · rw [if_neg h]
    rfl

/-- Claim C2, counterexample: a timed task whose fire time equals the
current clock time (`d = 0`) and whose sleep is never cancelled is NOT
handed to the executor's Begin path; the body only removes the persisted
record. -/
theorem C2_counterexample :
    timerDo ⟨22, LightSet.all, 0⟩ 0 true
      = [TEffect.removeEntry "22:0:All"] ∧
    TEffect.beginTask 22 LightSet.all ∉ timerDo ⟨22, LightSet.all, 0⟩ 0 true := by
  constructor
  · rfl
  · decide

/-- Claim C2 as amended: a timed task whose fire time is at or before the
current clock time when the body runs is never handed to Begin — the body
skips the sleep entirely and proceeds directly to removing the persisted
record (only a strictly future fire time whose sleep completes uncancelled
fires the task). -/
theorem C2_amended_past_fire_time_never_begins (t : TimerTaskW)
    (nowNs : Int) (sleepOk : Bool) (h : t.startNs ≤ nowNs) :
    timerDo t nowNs sleepOk = [TEffect.removeEntry (timerTaskId t)] := by
  have hd : ¬ (0 < t.startNs - nowNs ∧ sleepOk = true) := by
    rintro ⟨hlt, -⟩
    exact absurd (Int.sub_pos.mp hlt) (not_lt.mpr h)
  simp only [timerDo]
  rw [if_neg hd]
  rfl

theorem C2_amended_witness :
    timerDo ⟨5, LightSet.all, 3⟩ 7 true
      = [TEffect.removeEntry (timerTaskId ⟨5, LightSet.all, 3⟩)] :=
  C2_amended_past_fire_time_never_begins ⟨5, LightSet.all, 3⟩ 7 true (by decide)

/-- Claim C5, counterexample: two timed tasks over identical lights whose
start times differ (here by half a second, within the same Unix second) DO
conflict, so "start times differ implies never conflict" is false. -/
theorem C5_counterexample :
    (TimerTaskW.startNs ⟨1, LightSet.explicit [(1, true)], 0⟩
      ≠ TimerTaskW.startNs ⟨2, LightSet.explicit [(1, true)], 500000000⟩) ∧
    TimerTaskW.conflictsWith ⟨1, LightSet.explicit [(1, true)], 0⟩
      ⟨2, LightSet.explicit [(1, true)], 500000000⟩ = true := by
  constructor
  · decide
  · decide

/-- Claim C5 as amended: two timed tasks conflict iff their light sets
overlap and their fire times are equal compared as Unix seconds; two timed
tasks whose start times differ by at least one full second never conflict;
two bound (non-timed) tasks conflict exactly when their light sets
overlap. -/
theorem C5_amended_conflict_requires_same_unix_second
    (t o : TimerTaskW) (h1 h2 : HueTaskW) :
    (TimerTaskW.conflictsWith t o = true ↔
      (goUnix t.startNs = goUnix o.startNs ∧ overlapsWith t.ls o.ls = true)) ∧
    ((1000000000 ≤ o.startNs - t.startNs ∨ 1000000000 ≤ t.startNs - o.startNs) →
      TimerTaskW.conflictsWith t o = false) ∧
    HueTaskW.conflictsWith h1 h2 = overlapsWith h1.ls h2.ls := by
  have key : ∀ x y : Int, 1000000000 ≤ y - x → goUnix x < goUnix y := by
    intro x y hxy
    have hstep : x + 1000000000 ≤ y := by linarith
    have hmon : goUnix (x + 1000000000) ≤ goUnix y :=
      Int.ediv_le_ediv (by norm_num) hstep
    have hadd : goUnix (x + 1000000000) = goUnix x + 1 := by
      have h0 := Int.add_mul_ediv_right x 1
        (show (1000000000 : Int) ≠ 0 by norm_num)
      rw [one_mul] at h0
      exact h0
    rw [hadd] at hmon
    exact Int.lt_iff_add_one_le.mpr hmon
  refine ⟨?_, ?_, rfl⟩
  · rw [TimerTaskW.conflictsWith, Bool.and_eq_true, beq_iff_eq]
  · intro hfar
    have hne : goUnix t.startNs ≠ goUnix o.startNs := by
      rcases hfar with hf | hf
      · exact ne_of_lt (key _ _ hf)
      · exact (ne_of_lt (key _ _ hf)).symm
    rw [TimerTaskW.conflictsWith, beq_eq_false_iff_ne.mpr hne]
    rfl

theorem C5_amended_witness :
    TimerTaskW.conflictsWith ⟨1, LightSet.explicit [(1, true)], 0⟩
      ⟨2, LightSet.explicit [(1, true)], 1000000000⟩ = false :=
  (C5_amended_conflict_requires_same_unix_second
    ⟨1, LightSet.explicit [(1, true)], 0⟩
    ⟨2, LightSet.explicit [(1, true)], 1000000000⟩
    ⟨1, LightSet.all⟩ ⟨2, LightSet.all⟩).2.1 (Or.inl (by decide))

/-- Claim C8: for every registry state, `Conflicts(candidate)` returns
exactly the executions of the registered entries whose task conflicts with
the candidate, in registration order; a nil candidate collects every
registered execution. -/
theorem C8_conflicts_filters_by_predicate {τ ε : Type}
    (cw : τ → τ → Bool) (entries : List (τ × ε)) :
    (∀ c : τ, conflictsList cw entries (some c)
      = (entries.filter (fun p => cw p.1 c)).map Prod.snd) ∧
    conflictsList cw entries none = entries.map Prod.snd := by
  constructor
  · intro c
    induction entries with
    | nil => rfl
    | cons p rest ih =>
      rw [conflictsList, List.filter_cons]
      by_cases h : cw p.1 c = true
      · rw [if_pos h, if_pos h, List.map_cons, ih]
      · rw [if_neg h, if_neg h, ih]
  · induction entries with
    | nil => rfl
    | cons p rest ih =>
      rw [conflictsList, if_pos rfl, List.map_cons, ih]

/-- Claim C3, counterexample: subtracting the ALL sentinel from an
explicit set does not fail — it silently returns the NONE (empty) set,
exactly as the repository's own `TestSubtract` asserts. -/
theorem C3_counterexample :
    subtract? (LightSet.explicit (goNew [1, 3, 5])) LightSet.all
      = some (LightSet.explicit []) ∧
    lsString (LightSet.explicit []) = "None" ∧
    subtract? (LightSet.explicit (goNew [1, 3, 5])) LightSet.all ≠ none := by
  refine ⟨rfl, rfl, ?_⟩
  decide

/-- Claim C3 as amended: `Subtract` on an explicit receiver removes
exactly the present ids of the operand (pointwise over a well-formed map);
`New(1,3,5).Subtract(New(3,6))` serializes to "1,5"; and
`New(1,3,5).Subtract(ALL)` succeeds and returns NONE (it is subtracting
FROM the ALL sentinel that fails). -/
theorem C3_amended_subtract_removes_present_ids :
    (∀ (m o : SetMap), SetWF m → ∀ i : Int,
      lget (subtractE m o) i = (lget m i && !(lget o i))) ∧
    lsString (LightSet.explicit (subtractE (goNew [1, 3, 5]) (goNew [3, 6])))
      = "1,5" ∧
    subtract? (LightSet.explicit (goNew [1, 3, 5])) LightSet.all
      = some (LightSet.explicit []) := by
  refine ⟨?_, by decide, rfl⟩
  intro m o hwf i
  rw [subtractE, lget_filterTrueMap m _ hwf i]
  cases hf : lfind m i with
  | none => simp [lget, hf]
  | some b => simp [lget, hf]

theorem C3_amended_witness :
    lget (subtractE (goNew [1, 3, 5]) (goNew [3, 6])) 3
      = (lget (goNew [1, 3, 5]) 3 && !(lget (goNew [3, 6]) 3)) :=
  C3_amended_subtract_removes_present_ids.1 (goNew [1, 3, 5]) (goNew [3, 6])
    (by decide) 3

/-- Claim C4: parsing the string serialization yields back the original
set for the ALL sentinel, the NONE (empty) set, and the explicit set
`New(2,3,4,5,8,9,10)` — `InvString` is the exact inverse of `String` on
all three forms. -/
theorem C4_string_round_trip :
    invString (lsString LightSet.all) = Except.ok LightSet.all ∧
    invString (lsString (LightSet.explicit []))
      = Except.ok (LightSet.explicit []) ∧
    invString (lsString (LightSet.explicit (goNew [2, 3, 4, 5, 8, 9, 10])))
      = Except.ok (LightSet.explicit (goNew [2, 3, 4, 5, 8, 9, 10])) := by
  refine ⟨rfl, rfl, ?_⟩
  rfl

theorem splitComma_ne_nil (l : List Char) : splitComma l ≠ [] := by
  cases l with
  | nil => simp [splitComma]
  | cons c rest =>
    rw [splitComma]
    by_cases h : c = ','
    · simp [h]
    · rw [if_neg h]
      cases hs : splitComma rest <;> simp

theorem parseIds_error_of_bad (parts : List (List Char))
    (h : ∃ p ∈ parts, ∀ v : Int, goAtoi p = some v → v ≤ 0) :
    ∃ e : String, parseIds parts = Except.error e := by
  induction parts with
  | nil =>
    rcases h with ⟨p, hp, -⟩
    exact absurd hp (List.not_mem_nil _)
  | cons q rest ih =>
    cases ha : goAtoi q with
    | none => exact ⟨"atoi", by simp [parseIds, ha]⟩
    | some v =>
      by_cases hv : v ≤ 0
      · exact ⟨"Only positive light Ids allowed.", by simp [parseIds, ha, hv]⟩
      · rcases h with ⟨p, hp, hbad⟩
        rcases List.mem_cons.mp hp with h' | h'
        · subst h'
          exact absurd (hbad v ha) hv
        · rcases ih ⟨p, h', hbad⟩ with ⟨e, he⟩
          exact ⟨e, by simp [parseIds, ha, hv, he, Except.map]⟩

theorem parseIds_ok_nonempty (parts : List (List Char)) (ids : List Int)
    (hok : parseIds parts = Except.ok ids) (hne : parts ≠ []) :
    ids ≠ [] := by
  cases parts with
  | nil => exact absurd rfl hne
  | cons q rest =>
    cases ha : goAtoi q with
    | none => simp [parseIds, ha] at hok
    | some v =>
      by_cases hv : v ≤ 0
      · simp [parseIds, ha, hv] at hok
      · cases hrest : parseIds rest with
        | error e => simp [parseIds, ha, hv, hrest, Except.map] at hok
        | ok l2 =>
          have hids : v :: l2 = ids := by
            simpa [parseIds, ha, hv, hrest, Except.map] using hok
          rw [← hids]
          simp

/-- Claim C10: `Parse` of an empty or whitespace-only string returns the
ALL sentinel without error; every successful parse yields a set that is
not "no lights" (a non-empty trimmed input produces at least one present
id); duplicate ids and surrounding spaces are tolerated; and a token that
is non-numeric or parses to an id at most zero makes the whole parse
fail. -/
theorem C10_parse_never_returns_no_lights :
    (∀ s : String, goTrimSpace s.data = [] → goParse s = Except.ok LightSet.all) ∧
    goParse "" = Except.ok LightSet.all ∧
    goParse "   " = Except.ok LightSet.all ∧
    (∀ (s : String) (ls : LightSet),
      goParse s = Except.ok ls → ls.isNone = false) ∧
    goParse "9, 3, 9, 3, 5, 8, 2, 4, 10"
      = Except.ok (LightSet.explicit (goNew [2, 3, 4, 5, 8, 9, 10])) ∧
    (∀ s : String, goTrimSpace s.data ≠ [] →
      (∃ p ∈ (splitComma (goTrimSpace s.data)).map goTrimSpace,
        ∀ v : Int, goAtoi p = some v → v ≤ 0) →
      ∃ e : String, goParse s = Except.error e) := by
  refine ⟨?_, rfl, rfl, ?_, by rfl, ?_⟩
  · intro s h
    simp only [goParse]
    rw [if_pos h]
  · intro s ls h
    simp only [goParse] at h
    by_cases ht : goTrimSpace s.data = []
    · rw [if_pos ht] at h
      cases h
      rfl
    · rw [if_neg ht] at h
      cases hp : parseIds ((splitComma (goTrimSpace s.data)).map goTrimSpace) with
      | error e =>
        rw [hp] at h
        cases h
      | ok ids =>
        rw [hp] at h
        have hls : ls = LightSet.explicit (ids.foldl insertTrue []) := by
          rw [show Except.map
              (fun ids => LightSet.explicit (List.foldl insertTrue [] ids))
              (Except.ok ids)
            = Except.ok (LightSet.explicit (List.foldl insertTrue [] ids))
            from rfl] at h
          cases h
          rfl
        have hidsne : ids ≠ [] := by
          refine parseIds_ok_nonempty _ ids hp ?_
          intro hc
          cases hsc : splitComma (goTrimSpace s.data) with
          | nil => exact splitComma_ne_nil _ hsc
          | cons x xs =>
            rw [hsc] at hc
            simp at hc
        rw [hls]
        cases ids with
        | nil => exact absurd rfl hidsne
        | cons a arest =>
          rw [LightSet.isNone, List.foldl_cons]
          exact isNoneM_foldl_insertTrue arest _ (isNoneM_insertTrue [] a)
  · intro s hne hbad
    rcases parseIds_error_of_bad _ hbad with ⟨e, he⟩
    refine ⟨e, ?_⟩
    simp only [goParse]
    rw [if_neg hne, he]
    rfl

theorem C10_witness : ∃ e : String, goParse "0" = Except.error e := by
  refine C10_parse_never_returns_no_lights.2.2.2.2.2 "0" (by decide) ?_
  refine ⟨['0'], by decide, ?_⟩
  intro v hv
  have h0 : goAtoi ['0'] = some 0 := by decide
  rw [h0] at hv
  cases hv
  decide

theorem insertTrue_allTrue (m : SetMap) (j : Int)
    (h : ∀ p ∈ m, p.2 = true) : ∀ q ∈ insertTrue m j, q.2 = true := by
  induction m with
  | nil =>
    intro q hq
    rw [insertTrue] at hq
    rw [List.mem_singleton.mp hq]
  | cons p rest ih =>
    intro q hq
    by_cases h1 : j < p.1
    · rw [insertTrue, if_pos h1] at hq
      rcases List.mem_cons.mp hq with h' | h'
      · rw [h']
      · exact h q h'
    · by_cases h2 : j = p.1
      · rw [insertTrue, if_neg h1, if_pos h2] at hq
        rcases List.mem_cons.mp hq with h' | h'
        · rw [h']
        · exact h q (List.mem_cons_of_mem p h')
      · rw [insertTrue, if_neg h1, if_neg h2] at hq
        rcases List.mem_cons.mp hq with h' | h'
        · rw [h']
          exact h p (List.mem_cons_self p rest)
        · exact ih (fun r hr => h r (List.mem_cons_of_mem p hr)) q h'

theorem foldl_insertTrue_allTrue (ids : List Int) (m : SetMap)
    (h : ∀ p ∈ m, p.2 = true) : ∀ q ∈ ids.foldl insertTrue m, q.2 = true := by
  induction ids generalizing m with
  | nil => exact h
  | cons a rest ih =>
    rw [List.foldl_cons]
    exact ih _ (insertTrue_allTrue m a h)

theorem map_pairTrue_eq_self (m : SetMap) (h : ∀ p ∈ m, p.2 = true) :
    m.map (fun p => (p.1, true)) = m := by
  induction m with
  | nil => rfl
  | cons p rest ih =>
    obtain ⟨a, b⟩ := p
    rw [List.map_cons]
    have hb : b = true := h (a, b) (List.mem_cons_self _ _)
    rw [hb, ih (fun q hq => h q (List.mem_cons_of_mem _ hq))]

theorem lget_intersectE (K o : SetMap) (hwf : SetWF K) (i : Int) :
    lget (intersectE K o) i = (lget K i && lget o i) := by
  rw [intersectE, lget_filterTrueMap K _ hwf i]
  cases hf : lfind K i with
  | none => simp [lget, hf]
  | some b => simp [lget, hf]

theorem lget_of_mem_wf (K : SetMap) (hwf : SetWF K) (p : Int × Bool)
    (hp : p ∈ K) : lget K p.1 = p.2 := by
  rw [lget, lfind_of_mem_wf K hwf p hp]
  rfl

theorem filterTrueMap_congr (m : SetMap) (f g : Int × Bool → Bool)
    (h : ∀ p ∈ m, f p = g p) : filterTrueMap m f = filterTrueMap m g := by
  rw [filterTrueMap, filterTrueMap, List.filter_congr h]

/-- Claim C6: for every `StaticHueAction` (represented by the key list of
its color map), its `UsedLights` obeys the two closure axioms —
idempotence on every candidate set, and monotonicity with respect to the
subset order. -/
theorem C6_static_used_lights_axioms (ks : List Int) (S T : LightSet) :
    staticUsedLights ks (staticUsedLights ks S) = staticUsedLights ks S ∧
    (S.subsetL T → (staticUsedLights ks S).subsetL (staticUsedLights ks T)) := by
  by_cases h0 : ks.contains 0
  · constructor
    · simp only [staticUsedLights, if_pos h0]
    · intro hST
      simpa only [staticUsedLights, if_pos h0] using hST
  · have hwfK : SetWF (ks.foldl insertTrue []) := goNew_wf ks
    have hallK : ∀ q ∈ ks.foldl insertTrue [], q.2 = true :=
      foldl_insertTrue_allTrue ks [] (fun p hp => absurd hp (List.not_mem_nil p))
    have hKK : intersectE (ks.foldl insertTrue []) (ks.foldl insertTrue [])
        = ks.foldl insertTrue [] := by
      rw [intersectE, filterTrueMap]
      rw [List.filter_eq_self.mpr]
      · exact map_pairTrue_eq_self _ hallK
      · intro p hp
        rw [hallK p hp, lget_of_mem_wf _ hwfK p hp, hallK p hp]
        rfl
    have hstep : ∀ sm : SetMap,
        intersectE (ks.foldl insertTrue [])
            (intersectE (ks.foldl insertTrue []) sm)
          = intersectE (ks.foldl insertTrue []) sm := by
      intro sm
      have hfeq : ∀ p ∈ ks.foldl insertTrue [],
          (p.2 && lget (intersectE (ks.foldl insertTrue []) sm) p.1)
            = (p.2 && lget sm p.1) := by
        intro p hp
        rw [lget_intersectE _ _ hwfK, lget_of_mem_wf _ hwfK p hp,
          hallK p hp]
        rfl
      exact filterTrueMap_congr _ _ _ hfeq
    constructor
    · cases S with
      | all =>
        simp only [staticUsedLights, if_neg h0, LightSet.intersect]
        rw [hKK]
      | explicit sm =>
        simp only [staticUsedLights, if_neg h0, LightSet.intersect]
        rw [hstep sm]
    · intro hST i hmem
      cases S with
      | all =>
        cases T with
        | all => exact hmem
        | explicit tm =>
          simp only [staticUsedLights, if_neg h0, LightSet.intersect,
            LightSet.memL] at hmem ⊢
          have htm : lget tm i = true := hST i trivial
          rw [lget_intersectE _ _ hwfK, hmem, htm]
          rfl
      | explicit sm =>
        cases T with
        | all =>
          simp only [staticUsedLights, if_neg h0, LightSet.intersect,
            LightSet.memL] at hmem ⊢
          rw [lget_intersectE _ _ hwfK, Bool.and_eq_true] at hmem
          exact hmem.1
        | explicit tm =>
          simp only [staticUsedLights, if_neg h0, LightSet.intersect,
            LightSet.memL] at hmem ⊢
          rw [lget_intersectE _ _ hwfK, Bool.and_eq_true] at hmem
          have htm : lget tm i = true := hST i hmem.2
          rw [lget_intersectE _ _ hwfK, hmem.1, htm]
          rfl

theorem C6_witness :
    (staticUsedLights [1, 2] (LightSet.explicit [(1, true)])).subsetL
      (staticUsedLights [1, 2] LightSet.all) :=
  (C6_static_used_lights_axioms [1, 2] (LightSet.explicit [(1, true)])
    LightSet.all).2 (fun _ _ => trivial)

/-- Claim C1: whenever `MaybeStart` returns an execution, the effective
light set the new task runs on (the second closure `willUse`) does not
overlap the light set of any task registered at the time of the call, and
(for a non-empty registry) acceptance went through the
`willUse.Subtract(available)` is-none test, with `available` computed as
`needed.Subtract(inUse)`.  The task's `UsedLights` closure is assumed
idempotent and monotone, as the scheduler requires. -/
theorem C1_maybe_start_avoids_registered_lights (U : LightSet → LightSet)
    (running : List LightSet) (lightSet w : LightSet)
    (hidem : ∀ S : LightSet, U (U S) = U S)
    (hmono : ∀ S T : LightSet, S.subsetL T → (U S).subsetL (U T))
    (hres : maybeStart U running lightSet = some (some w)) :
    (∀ L ∈ running, overlapsWith w L = false) ∧
    (running ≠ [] →
      ∃ inUse : SetMap, ∃ avail leftover : LightSet,
        lightsInUseLoop running [] = some inUse ∧
        subtract? (U lightSet) (LightSet.explicit inUse) = some avail ∧
        w = U avail ∧
        subtract? w avail = some leftover ∧ leftover.isNone = true) := by
  cases running with
  | nil =>
    exact ⟨fun L hL => absurd hL (List.not_mem_nil _), fun hc => absurd rfl hc⟩
  | cons R rest =>
    by_cases h1 : (U lightSet).isNone = true
    · rw [maybeStart, if_pos h1] at hres
      simp at hres
    by_cases h2 : (U lightSet).isAll = true
    · rw [maybeStart, if_neg h1, if_pos h2] at hres
      simp at hres
    cases hloop : lightsInUseLoop (R :: rest) [] with
    | none =>
      rw [maybeStart, if_neg h1, if_neg h2, hloop] at hres
      simp at hres
    | some inUse =>
      cases hU : U lightSet with
      | all =>
        rw [hU] at h2
        exact absurd rfl h2
      | explicit nm =>
        have h1' : ¬ (LightSet.explicit nm).isNone = true := by
          rw [← hU]
          exact h1
        have h2' : ¬ (LightSet.explicit nm).isAll = true := by
          rw [← hU]
          exact h2
        simp only [maybeStart, hloop, hU, subtract?, if_neg h1',
          if_neg h2'] at hres
        by_cases h3 : (LightSet.explicit (subtractE nm inUse)).isNone = true
        · rw [if_pos h3] at hres
          simp at hres
        rw [if_neg h3] at hres
        by_cases h4 :
            (U (LightSet.explicit (subtractE nm inUse))).isNone = true
        · rw [if_pos h4] at hres
          simp at hres
        rw [if_neg h4] at hres
        cases hW : U (LightSet.explicit (subtractE nm inUse)) with
        | all =>
          rw [hW] at hres
          simp only [subtract?] at hres
          simp at hres
        | explicit wm =>
          rw [hW] at hres
          simp only [subtract?] at hres
          by_cases h5 :
              (LightSet.explicit
                (subtractE wm (subtractE nm inUse))).isNone = true
          · rw [if_pos h5] at hres
            have hw : LightSet.explicit wm = w :=
              Option.some.inj (Option.some.inj hres)
            subst hw
            constructor
            · intro L hL
              have hLnotall :=
                lightsInUseLoop_noAll (R :: rest) [] inUse hloop L hL
              cases L with
              | all => exact absurd rfl hLnotall
              | explicit Lm =>
                show (wm.any fun p => p.2 && lget Lm p.1) = false
                cases hov : wm.any (fun p => p.2 && lget Lm p.1)
                · rfl
                · exfalso
                  rcases List.any_eq_true.mp hov with ⟨p, hpmem, hpz⟩
                  rw [Bool.and_eq_true] at hpz
                  obtain ⟨hp2, hpL⟩ := hpz
                  have h5' :
                      isNoneM (subtractE wm (subtractE nm inUse)) = true := h5
                  have hnotf :=
                    (isNoneM_filterTrueMap wm _).mp h5' p hpmem
                  rw [hp2] at hnotf
                  have havailp : lget (subtractE nm inUse) p.1 = true := by
                    cases hx : lget (subtractE nm inUse) p.1
                    · rw [hx] at hnotf
                      simp at hnotf
                    · rfl
                  have hmemav := mem_of_lget_true _ _ havailp
                  rcases mem_filterTrueMap nm _ _ hmemav with
                    ⟨-, q, hqm, hq1, hqf⟩
                  rw [Bool.and_eq_true] at hqf
                  have hinuse : lget inUse q.1 = false := by
                    cases hx : lget inUse q.1
                    · rfl
                    · rw [hx] at hqf
                      exact absurd hqf.2 (by simp)
                  have hintrue : lget inUse p.1 = true :=
                    lightsInUseLoop_mem (R :: rest) [] inUse hloop Lm hL
                      p.1 hpL
                  rw [hq1] at hinuse
                  rw [hintrue] at hinuse
                  simp at hinuse
            · intro hne2
              exact ⟨inUse, LightSet.explicit (subtractE nm inUse),
                LightSet.explicit (subtractE wm (subtractE nm inUse)),
                rfl, rfl, hW.symm, rfl, h5⟩
          · rw [if_neg h5] at hres
            simp at hres

theorem C1_witness :
    overlapsWith (LightSet.explicit [(2, true)])
      (LightSet.explicit [(1, true)]) = false :=
  (C1_maybe_start_avoids_registered_lights (fun s => s)
    [LightSet.explicit [(1, true)]] (LightSet.explicit [(2, true)])
    (LightSet.explicit [(2, true)])
    (fun _ => rfl) (fun _ _ h => h) (by decide)).1
    (LightSet.explicit [(1, true)]) (by decide)
